import Mathlib

/-!
Verification development for the track-number parsing engine, the interactive
strategy selector of the tagger, and the folder-structure normalizer of the
hvtag repository (src/src/tagger/track_parser.rs, src/src/tagger/mod.rs,
src/src/tagger/interactive_parser.rs, src/src/tagger/folder_normalizer.rs).

Modelling notes.
* Strings are modelled as Lean String / List Char.  The Rust regex class \d is
  modelled as the ASCII digits: in the source every captured text is fed to
  str::parse::<u32>, which fails on any non-ASCII digit, so a capture that
  contains a non-ASCII decimal digit never produces a track number.
* The Rust regex class \s is modelled by its ASCII members (space, tab,
  newline, carriage return, vertical tab, form feed).
* Matching follows the leftmost-first, greedy-with-backtracking semantics of
  the regex crate: positions are scanned left to right and, inside a pattern,
  the repetition \d{1,3} first tries three digits, then two, then one.
* char::to_lowercase and str::to_lowercase are modelled by the ASCII
  Char.toLower (the recognized folder names and regex literals are ASCII).
* Unicode NFKC normalization is modelled on the code points the source cares
  about: the full-width block U+FF01..U+FF5E is mapped onto ASCII and the
  ideographic space U+3000 onto the ASCII space; every other character is kept
  unchanged.  The second step of normalize_asian_text (the explicit full-width
  digit mapping) is reproduced as in the source.
-/

/-! ### Character classes and small helpers (track_parser.rs) -/

/-- The separator class of the source regexes, `[\s\-._]`, restricted to the
ASCII whitespace characters. -/
def isSep (c : Char) : Bool :=
  c = ' ' || c = '\t' || c = '\n' || c = '\r' || c = '\x0b' || c = '\x0c' ||
  c = '-' || c = '.' || c = '_'

/-- The ASCII digit class (the model of the regex class \d). -/
def isDigitA (c : Char) : Bool := 48 ≤ c.toNat && c.toNat ≤ 57

/-- Numeric value of a list of ASCII digits, as str::parse::<u32> computes it
on a capture of at most three digits. -/
def digitsVal (ds : List Char) : Nat :=
  ds.foldl (fun acc c => acc * 10 + (c.toNat - 48)) 0

/-- Take exactly `k` ASCII digits from the front of the list, returning the
digits and the remainder; fails when fewer than `k` digits are available. -/
def takeDigits : Nat → List Char → Option (List Char × List Char)
  | 0, cs => some ([], cs)
  | _ + 1, [] => none
  | k + 1, c :: cs =>
    if isDigitA c then
      match takeDigits k cs with
      | some (ds, r) => some (c :: ds, r)
      | none => none
    else none

/-- The repetition `(\d{1,3})` under greedy backtracking: try three digits,
then two, then one, feeding each candidate capture to the continuation. -/
def tryDigits13 (cs : List Char) (k : Nat → List Char → Option Nat) : Option Nat :=
  (match takeDigits 3 cs with
   | some (ds, r) => k (digitsVal ds) r
   | none => none) <|>
  ((match takeDigits 2 cs with
    | some (ds, r) => k (digitsVal ds) r
    | none => none) <|>
   (match takeDigits 1 cs with
    | some (ds, r) => k (digitsVal ds) r
    | none => none))

/-- Leftmost-first scan of an unanchored pattern: try the pattern at every
position, left to right. -/
def findFirst (f : List Char → Option Nat) : List Char → Option Nat
  | [] => f []
  | c :: cs => f (c :: cs) <|> findFirst f cs

/-- Consume an exact literal from the front of the input. -/
def dropLit : List Char → List Char → Option (List Char)
  | [], cs => some cs
  | _ :: _, [] => none
  | l :: ls, c :: cs => if c = l then dropLit ls cs else none

/-- Split a character list at its last '.', returning the parts before and
after it; none when no '.' occurs (str::rsplit_once('.')). -/
def lastSplit : List Char → Option (List Char × List Char)
  | [] => none
  | c :: cs =>
    match lastSplit cs with
    | some (b, a) => some (c :: b, a)
    | none => if c = '.' then some ([], cs) else none

/-- `filename.rsplit_once('.').map(|(name, _)| name).unwrap_or(filename)`:
drop the extension after the final '.', keep the whole name otherwise. -/
def stripExt (cs : List Char) : List Char :=
  match lastSplit cs with
  | some (b, _) => b
  | none => cs

/-- The repeated block of the source: a strategy that captured `n` returns it
when the sanity bound `0 < n < 1000` holds, and otherwise (capture failure or
bound failure) control falls through to the next strategy. -/
def orBounded (raw : Option Nat) (next : Option Nat) : Option Nat :=
  match raw with
  | some n => if 0 < n ∧ n < 1000 then some n else next
  | none => next

/-! ### The six automatic strategies of parse_track_number -/

/-- Strategy 1, `^(\d{1,3})[\s\-._]` (anchored). -/
def matchBeginningRaw (cs : List Char) : Option Nat :=
  tryDigits13 cs fun n r =>
    match r with
    | c :: _ => if isSep c then some n else none
    | [] => none

/-- Pattern `#(\d{1,3})` at one position. -/
def hashAt : List Char → Option Nat
  | '#' :: rest => tryDigits13 rest fun n _ => some n
  | _ => none

/-- Strategy 2, `#(\d{1,3})` (unanchored). -/
def matchHashRaw (cs : List Char) : Option Nat := findFirst hashAt cs

/-- One alternative of strategy 2.5: a literal, then `(\d{1,3})`, then a
separator. -/
def shortAfterLit (lit : List Char) (cs : List Char) : Option Nat :=
  match dropLit lit cs with
  | some rest =>
    tryDigits13 rest fun n r =>
      match r with
      | c :: _ => if isSep c then some n else none
      | [] => none
  | none => none

/-- Strategy 2.5, `^(?:tr|tk|track|ch|se|bgm)(\d{1,3})[\s\-._]` on the
lowercased name (anchored; alternatives tried in source order). -/
def matchKnownShortRaw (lower : List Char) : Option Nat :=
  shortAfterLit "tr".data lower <|>
  (shortAfterLit "tk".data lower <|>
   (shortAfterLit "track".data lower <|>
    (shortAfterLit "ch".data lower <|>
     (shortAfterLit "se".data lower <|>
      shortAfterLit "bgm".data lower))))

/-- The part of strategy 3 after the prefix literal:
`(\d{1,3})[\s\-._](\d{1,3})`, capturing the second number. -/
def discTail (rest : List Char) : Option Nat :=
  tryDigits13 rest fun _ r1 =>
    match r1 with
    | c :: r2 => if isSep c then tryDigits13 r2 fun n2 _ => some n2 else none
    | [] => none

/-- The optional separator `[\s\-._]?` of strategy 3 (greedy: first with the
separator consumed, then without). -/
def discAfterLit (rest : List Char) : Option Nat :=
  match rest with
  | c :: r => if isSep c then discTail r <|> discTail rest else discTail rest
  | [] => discTail rest

/-- Pattern `(?:disc|cd|track)[\s\-._]?(\d{1,3})[\s\-._](\d{1,3})` at one
position. -/
def discAt (cs : List Char) : Option Nat :=
  (match dropLit "disc".data cs with
   | some r => discAfterLit r
   | none => none) <|>
  ((match dropLit "cd".data cs with
    | some r => discAfterLit r
    | none => none) <|>
   (match dropLit "track".data cs with
    | some r => discAfterLit r
    | none => none))

/-- Strategy 3 on the lowercased name (unanchored). -/
def matchDiscRaw (lower : List Char) : Option Nat := findFirst discAt lower

/-- Pattern `[\s\-._](\d{1,3})[\s\-._]` at one position. -/
def interiorAt : List Char → Option Nat
  | c :: rest =>
    if isSep c then
      tryDigits13 rest fun n r =>
        match r with
        | c2 :: _ => if isSep c2 then some n else none
        | [] => none
    else none
  | [] => none

/-- Strategy 4, `[\s\-._](\d{1,3})[\s\-._]` (unanchored). -/
def matchInteriorRaw (cs : List Char) : Option Nat := findFirst interiorAt cs

/-- Pattern `[\s\-._](\d{1,3})$` at one position. -/
def endAt : List Char → Option Nat
  | c :: rest =>
    if isSep c then
      tryDigits13 rest fun n r => if r.isEmpty then some n else none
    else none
  | [] => none

/-- Strategy 5, `[\s\-._](\d{1,3})$` (unanchored). -/
def matchEndRaw (cs : List Char) : Option Nat := findFirst endAt cs

/-- parse_track_number of track_parser.rs: strip the extension, then run the
ordered cascade of strategies, each guarded by the 1..999 sanity bound. -/
def parse_track_number (filename : String) : Option Nat :=
  let name := stripExt filename.data
  let lower := name.map Char.toLower
  orBounded (matchBeginningRaw name)
    (orBounded (matchHashRaw name)
      (orBounded (matchKnownShortRaw lower)
        (orBounded (matchDiscRaw lower)
          (orBounded (matchInteriorRaw name)
            (orBounded (matchEndRaw name) none)))))

/-! ### Preference strategies (normalize_asian_text, brackets, kanji, …) -/

/-- NFKC restricted to the full-width block: U+FF01..U+FF5E map onto ASCII,
the ideographic space U+3000 onto the ASCII space. -/
def nfkcApproxChar (c : Char) : Char :=
  if 0xFF01 ≤ c.toNat ∧ c.toNat ≤ 0xFF5E then Char.ofNat (c.toNat - 0xFEE0)
  else if c.toNat = 0x3000 then ' '
  else c

/-- normalize_asian_text: NFKC normalization followed by the explicit mapping
of any remaining full-width digits U+FF10..U+FF19 onto ASCII digits. -/
def normalize_asian_text (text : String) : String :=
  let nfkcd := text.data.map nfkcApproxChar
  String.mk (nfkcd.map fun c =>
    if 0xFF10 ≤ c.toNat ∧ c.toNat ≤ 0xFF19 then Char.ofNat (c.toNat - 0xFF10 + 0x30)
    else c)

/-- One bracket pattern of parse_asian_brackets at one position: opening
glyph, `(\d{1,3})`, closing glyph. -/
def bracketAt (op cl : Char) : List Char → Option Nat
  | c :: rest =>
    if c = op then
      tryDigits13 rest fun n r =>
        match r with
        | c2 :: _ => if c2 = cl then some n else none
        | [] => none
    else none
  | [] => none

/-- parse_asian_brackets: normalize, then try the six bracket patterns in
source order, each guarded by the 1..999 bound. -/
def parse_asian_brackets (filename : String) : Option Nat :=
  let normalized := (normalize_asian_text filename).data
  orBounded (findFirst (bracketAt '【' '】') normalized)
    (orBounded (findFirst (bracketAt '［' '］') normalized)
      (orBounded (findFirst (bracketAt '〔' '〕') normalized)
        (orBounded (findFirst (bracketAt '〈' '〉') normalized)
          (orBounded (findFirst (bracketAt '《' '》') normalized)
            (orBounded (findFirst (bracketAt '（' '）') normalized) none)))))

/-- Pattern `第(\d{1,3})[話章回集]` at one position. -/
def kanjiAt : List Char → Option Nat
  | c :: rest =>
    if c = '第' then
      tryDigits13 rest fun n r =>
        match r with
        | c2 :: _ =>
          if c2 = '話' || c2 = '章' || c2 = '回' || c2 = '集' then some n else none
        | [] => none
    else none
  | [] => none

/-- parse_kanji_episode: normalize, then match the kanji episode pattern,
guarded by the 1..999 bound. -/
def parse_kanji_episode (filename : String) : Option Nat :=
  orBounded (findFirst kanjiAt (normalize_asian_text filename).data) none

/-- Pattern `(\d{1,3})` at one position (first_number strategy). -/
def firstNumAt (cs : List Char) : Option Nat :=
  tryDigits13 cs fun n _ => some n

/-- Pattern `(\d{1,3})<literal delimiter>` at one position (custom_delimiter
strategy; regex::escape makes the delimiter a literal). -/
def customDelimAt (delim : List Char) (cs : List Char) : Option Nat :=
  tryDigits13 cs fun n r =>
    match dropLit delim r with
    | some _ => some n
    | none => none

/-- TrackParsingPreference of track_parser.rs. -/
structure TrackParsingPreference where
  strategy_name : String
  custom_delimiter : Option String
  use_asian_conversion : Bool
  asian_format_type : Option String
deriving DecidableEq, Repr

/-- try_strategy of track_parser.rs: dispatch on the strategy name; an
unknown name falls back to the automatic cascade. -/
def try_strategy (filename : String) (pref : TrackParsingPreference) : Option Nat :=
  let nameWithoutExt := stripExt filename.data
  if pref.strategy_name = "asian_brackets" then parse_asian_brackets filename
  else if pref.strategy_name = "asian_kanji_episode" then parse_kanji_episode filename
  else if pref.strategy_name = "asian_fullwidth" then
    parse_track_number (normalize_asian_text filename)
  else if pref.strategy_name = "first_number" then
    orBounded (findFirst firstNumAt nameWithoutExt) none
  else if pref.strategy_name = "custom_delimiter" then
    match pref.custom_delimiter with
    | some delimiter => orBounded (findFirst (customDelimAt delimiter.data) nameWithoutExt) none
    | none => none
  else parse_track_number filename

/-- parse_track_number_with_preference: try the stored preference first, then
fall back to the automatic cascade. -/
def parse_track_number_with_preference (filename : String)
    (preference : Option TrackParsingPreference) : Option Nat :=
  match preference with
  | some pref =>
    match try_strategy filename pref with
    | some track => some track
    | none => parse_track_number filename
  | none => parse_track_number filename

example : parse_track_number "01 - Track.mp3" = some 1 := by decide
example : parse_track_number "CD2-05.flac" = some 5 := by decide
example : parse_track_number "NoNumber.mp3" = none := by decide
example : parse_track_number "1000.mp3" = none := by decide
example : parse_track_number "#3-A.titre.mp3" = some 3 := by decide
example : parse_track_number "prefix_01_Track.mp3" = some 1 := by decide
example : parse_track_number "Track 01.mp3" = some 1 := by decide
example : parse_track_number "track03_x.mp3" = some 3 := by decide

/-! ### Model of tag_all_files (tagger/mod.rs) and the interactive selector
(interactive_parser.rs)

The IO-bound control flow of tag_all_files is modelled as a pure function
from the per-work inputs to the ordered list of observable events of one run.
The collaborators are modelled at the interface of section 6 of the spec: the
persistence read is the savedPref field, the operator answers are the
userSelection / delimiterInput / confirmAnswer fields, and the persistence
write either succeeds (saveOk = true) or fails (saveOk = false, in which case
the `?` operator propagates the error out of tag_all_files).  The filenames
field is the list of MP3 files collected in step 1 of tag_all_files, in
directory order. -/

/-- Observable events of one tag_all_files run, in program order. -/
inductive TagEvent where
  /-- prompt_for_parsing_strategy was invoked (the interactive selector ran). -/
  | selectorRun : TagEvent
  /-- save_track_parsing_preference succeeded for this preference. -/
  | prefSaved : TrackParsingPreference → TagEvent
  /-- A file was tagged (tag_audio_file + record_file_processing), with the
  track number that was written. -/
  | fileTagged : String → Option Nat → TagEvent
deriving DecidableEq, Repr

/-- Inputs of one tag_all_files run, with the collaborator answers. -/
structure WorkInput where
  /-- The MP3 filenames of the work folder, in directory order. -/
  filenames : List String
  /-- get_track_parsing_preference result for this work. -/
  savedPref : Option TrackParsingPreference
  /-- The menu index the operator selects when prompted (0..5; index 5 is
  the skip entry of the menu). -/
  userSelection : Fin 6
  /-- The delimiter text the operator enters when selecting index 3. -/
  delimiterInput : String
  /-- The yes/no answer of confirm_strategy. -/
  confirmAnswer : Bool
  /-- Whether save_track_parsing_preference succeeds. -/
  saveOk : Bool

/-- prompt_for_parsing_strategy of interactive_parser.rs: the menu match.
none models the Err(HvtError::Parse("User skipped folder")) arm. -/
def promptForParsingStrategy (selection : Fin 6) (delimiterInput : String) :
    Option TrackParsingPreference :=
  match (selection : Nat) with
  | 0 => some ⟨"asian_fullwidth", none, true, some "fullwidth"⟩
  | 1 => some ⟨"asian_brackets", none, true, some "asian_brackets"⟩
  | 2 => some ⟨"asian_kanji_episode", none, true, some "kanji_episode"⟩
  | 3 => some ⟨"custom_delimiter", some delimiterInput, false, none⟩
  | 4 => some ⟨"first_number", none, false, none⟩
  | _ => none

/-- test_strategy of interactive_parser.rs. -/
def testStrategy (filenames : List String) (preference : TrackParsingPreference) :
    List (Option Nat) :=
  filenames.map fun f => parse_track_number_with_preference f (some preference)

/-- The failure count of step 3 of tag_all_files: how many filenames the
automatic cascade cannot parse. -/
def cascade_failure_count (filenames : List String) : Nat :=
  ((filenames.map parse_track_number).filter fun p => p.isNone).length

/-- tag_all_files of tagger/mod.rs, as the event trace of one run together
with the success flag of its Result.  The comparison `failure_rate > 0.3` of
the source is computed in f32; it is modelled by the exact rational
comparison failure_count / len > 3 / 10, which agrees with the f32
computation for every file count below eight million. -/
def tagAllFiles (w : WorkInput) : List TagEvent × Bool :=
  if w.filenames.isEmpty then ([], true)
  else
    let needUserInput :=
      match w.savedPref with
      | some _ => false
      | none =>
        decide (3 * (w.filenames.map parse_track_number).length <
          10 * cascade_failure_count w.filenames)
    let step4 : List TagEvent × Option TrackParsingPreference × Bool :=
      if needUserInput then
        match promptForParsingStrategy w.userSelection w.delimiterInput with
        | some pref =>
          let _preview := testStrategy w.filenames pref
          if w.confirmAnswer then
            if w.saveOk then ([.selectorRun, .prefSaved pref], some pref, true)
            else ([.selectorRun], w.savedPref, false)
          else ([.selectorRun], w.savedPref, true)
        | none => ([.selectorRun], w.savedPref, true)
      else ([], w.savedPref, true)
    match step4 with
    | (events, currentPref, ok) =>
      if ok then
        (events ++ w.filenames.map fun f =>
          .fileTagged f (parse_track_number_with_preference f currentPref), true)
      else (events, false)

example :
    tagAllFiles ⟨["foo.mp3", "bar.mp3"], none, 5, "", true, true⟩ =
      ([.selectorRun, .fileTagged "foo.mp3" none, .fileTagged "bar.mp3" none], true) := by
  decide

example :
    tagAllFiles ⟨["foo.mp3"], none, 4, "", true, true⟩ =
      ([.selectorRun, .prefSaved ⟨"first_number", none, false, none⟩,
        .fileTagged "foo.mp3" none], true) := by
  decide

/-! ### Model of folder_normalizer.rs

A directory tree is modelled as a sibling chain in first-entry / next-entry
form: `Fs.nil` ends a sibling list, `Fs.file name next` is a file entry
followed by the rest of the list, and `Fs.dir name children next` is a
subdirectory entry with its own child chain.  A work directory is the chain
of its immediate entries.  The sibling order models the read_dir iteration
order.  Filesystem errors other than the collision-exhaustion failure of
resolve_filename_conflict are outside the model (the idempotence property is
conditional on a run without filesystem errors). -/

/-- A directory entry chain (first child / next sibling form). -/
inductive Fs where
  | nil : Fs
  | file : String → Fs → Fs
  | dir : String → Fs → Fs → Fs
deriving DecidableEq, Repr

/-- FolderPattern of folder_normalizer.rs. -/
inductive FolderPattern where
  | Flat | Mp3Subfolder | AudioSubfolder | FormatSubfolder
  | DiscSubfolders | LanguageSubfolders | Mixed
deriving DecidableEq, Repr

/-- Path::extension of a file name: the part after the last '.', except that
a name whose only '.' is the leading character has no extension. -/
def rustExtension (name : List Char) : Option (List Char) :=
  match lastSplit name with
  | some (b, a) => if b.isEmpty then none else some a
  | none => none

/-- Path::file_stem of a file name: the part before the extension. -/
def rustStem (name : String) : String :=
  match lastSplit name.data with
  | some (b, _) => if b.isEmpty then name else String.mk b
  | none => name

/-- Whether a file name has one of the recognized audio extensions
(`matches!(ext, "mp3" | "flac" | "wav" | "ogg")`). -/
def isAudioName (name : String) : Bool :=
  match rustExtension name.data with
  | some e => e = "mp3".data || e = "flac".data || e = "wav".data || e = "ogg".data
  | none => false

/-- Lowercased characters of a name (str::to_lowercase on ASCII). -/
def lowerData (s : String) : List Char := s.data.map Char.toLower

/-- str::starts_with on character lists. -/
def startsWithL : List Char → List Char → Bool
  | [], _ => true
  | _ :: _, [] => false
  | p :: ps, c :: cs => p = c && startsWithL ps cs

/-- has_audio_files_in_dir: does a directory contain an audio file at its own
immediate level (non-recursive)? -/
def hasAudioImmediate : Fs → Bool
  | .nil => false
  | .file n t => isAudioName n || hasAudioImmediate t
  | .dir _ _ t => hasAudioImmediate t

/-- The six mutable flags of detect_folder_pattern. -/
structure DetectFlags where
  hasAudioInRoot : Bool
  hasMp3Subdir : Bool
  hasAudioSubdir : Bool
  hasFormatSubdir : Bool
  hasDiscSubdirs : Bool
  hasLangSubdirs : Bool
deriving DecidableEq, Repr

/-- The initial all-false flags of detect_folder_pattern. -/
def initFlags : DetectFlags := ⟨false, false, false, false, false, false⟩

/-- The directory scan of detect_folder_pattern: one pass over the immediate
entries, assigning each flag as in the source (a later subdirectory of the
same category overwrites the flag rather than or-ing into it). -/
def scanFlags (fl : DetectFlags) : Fs → DetectFlags
  | .nil => fl
  | .file n t =>
    scanFlags (if isAudioName n then { fl with hasAudioInRoot := true } else fl) t
  | .dir n cs t =>
    let l := lowerData n
    let fl2 :=
      if l = "mp3".data then { fl with hasMp3Subdir := hasAudioImmediate cs }
      else if l = "audio".data then { fl with hasAudioSubdir := hasAudioImmediate cs }
      else if l = "wav".data || l = "flac".data || l = "ogg".data then
        { fl with hasFormatSubdir := hasAudioImmediate cs }
      else if startsWithL "disc".data l || startsWithL "cd".data l then
        { fl with hasDiscSubdirs := hasAudioImmediate cs }
      else if l = "jp".data || l = "en".data || l = "cn".data || l = "kr".data then
        { fl with hasLangSubdirs := hasAudioImmediate cs }
      else fl
    scanFlags fl2 t

/-- The decision at the end of detect_folder_pattern. -/
def decidePattern (fl : DetectFlags) : FolderPattern :=
  let cnt :=
    (if fl.hasMp3Subdir then 1 else 0) + (if fl.hasAudioSubdir then 1 else 0) +
    (if fl.hasFormatSubdir then 1 else 0) + (if fl.hasDiscSubdirs then 1 else 0) +
    (if fl.hasLangSubdirs then 1 else 0)
  if 1 < cnt then .Mixed
  else if fl.hasAudioInRoot && cnt == 0 then .Flat
  else if fl.hasMp3Subdir then .Mp3Subfolder
  else if fl.hasAudioSubdir then .AudioSubfolder
  else if fl.hasFormatSubdir then .FormatSubfolder
  else if fl.hasDiscSubdirs then .DiscSubfolders
  else if fl.hasLangSubdirs then .LanguageSubfolders
  else .Flat

/-- detect_folder_pattern of folder_normalizer.rs. -/
def detect_folder_pattern (root : Fs) : FolderPattern :=
  decidePattern (scanFlags initFlags root)

/-- collect_audio_files_recursive: every audio file anywhere under the root,
as (relative subdirectory components, file name), in traversal order. -/
def collectL (pre : List String) : Fs → List (List String × String)
  | .nil => []
  | .file n t => (if isAudioName n then [(pre, n)] else []) ++ collectL pre t
  | .dir n cs t => collectL (pre ++ [n]) cs ++ collectL pre t

/-- should_preserve_subdir_prefix of folder_normalizer.rs (the subdir
argument is the slash-joined relative path). -/
def should_preserve_subdir (pattern : FolderPattern) (subdir : String) : Bool :=
  match pattern with
  | .DiscSubfolders => true
  | .LanguageSubfolders => true
  | .Mixed =>
    let l := lowerData subdir
    startsWithL "disc".data l || startsWithL "cd".data l ||
    l = "jp".data || l = "en".data || l = "cn".data || l = "kr".data
  | _ => false

/-- Does the root chain contain an entry (file or directory) with this name
(Path::exists on the joined root path)? -/
def hasName (n : String) : Fs → Bool
  | .nil => false
  | .file m t => m = n || hasName n t
  | .dir m _ t => m = n || hasName n t

/-- Remove the first file entry with the given name from a chain. -/
def removeFileRoot (n : String) : Fs → Fs
  | .nil => .nil
  | .file m t => if m = n then t else .file m (removeFileRoot n t)
  | .dir m cs t => .dir m cs (removeFileRoot n t)

/-- Apply an update to the children of the first directory with the given
name. -/
def updateDir (d : String) (f : Fs → Fs) : Fs → Fs
  | .nil => .nil
  | .file m t => .file m (updateDir d f t)
  | .dir m cs t => if m = d then .dir m (f cs) t else .dir m cs (updateDir d f t)

/-- Remove the file at the given relative directory path from the tree (the
source half of fs::rename). -/
def removeAtPath : List String → String → Fs → Fs
  | [], n => removeFileRoot n
  | d :: rest, n => updateDir d (removeAtPath rest n)

/-- Append a file entry at the end of the root chain (the destination half of
fs::rename; a new directory entry is appended in listing order). -/
def appendFile (n : String) : Fs → Fs
  | .nil => .file n .nil
  | .file m t => .file m (appendFile n t)
  | .dir m cs t => .dir m cs (appendFile n t)

/-- The 1..1000 suffix search of resolve_filename_conflict, with the running
index and the remaining attempts. -/
def conflictLoop (cur : Fs) (stem ext : String) : Nat → Nat → Except Unit String
  | _, 0 => .error ()
  | i, fuel + 1 =>
    let cand :=
      if ext.isEmpty then stem ++ "_" ++ toString i
      else stem ++ "_" ++ toString i ++ "." ++ ext
    if hasName cand cur then conflictLoop cur stem ext (i + 1) fuel else .ok cand

/-- resolve_filename_conflict of folder_normalizer.rs: keep the name when the
destination does not exist, otherwise append the first free `_N` suffix before
the extension; exhausting the 999 attempts is a hard failure. -/
def resolveFilenameConflict (cur : Fs) (name : String) : Except Unit String :=
  if hasName name cur then
    conflictLoop cur (rustStem name)
      (match rustExtension name.data with
       | some e => String.mk e
       | none => "") 1 999
  else .ok name

/-- The relocation loop of normalize_folder_structure: files already at root
are skipped; every other audio file is renamed into the root, with the
subdirectory path preserved as a prefix for disc/language layouts. -/
def moveLoop (pattern : FolderPattern) :
    Fs → List (List String × String) → Nat → Except Unit (Fs × Nat)
  | cur, [], acc => .ok (cur, acc)
  | cur, (rel, name) :: rest, acc =>
    if rel.isEmpty then moveLoop pattern cur rest acc
    else
      let newName :=
        if should_preserve_subdir pattern (String.intercalate "/" rel) then
          String.intercalate "_" rel ++ "_" ++ name
        else name
      match resolveFilenameConflict cur newName with
      | .ok finalName =>
        moveLoop pattern (appendFile finalName (removeAtPath rel name cur)) rest (acc + 1)
      | .error e => .error e

/-- cleanup_empty_subdirs: best-effort removal of the immediate subdirectories
of the root; fs::remove_dir succeeds exactly on the empty ones. -/
def cleanupEmptySubdirs : Fs → Fs
  | .nil => .nil
  | .file n t => .file n (cleanupEmptySubdirs t)
  | .dir n cs t =>
    match cs with
    | .nil => cleanupEmptySubdirs t
    | .file _ _ => .dir n cs (cleanupEmptySubdirs t)
    | .dir _ _ _ => .dir n cs (cleanupEmptySubdirs t)

/-- normalize_folder_structure of folder_normalizer.rs: detect the pattern,
return 0 moves for Flat, otherwise relocate every audio file found by the
recursive collection and clean up emptied subdirectories. -/
def normalize_folder_structure (root : Fs) : Except Unit (Fs × Nat) :=
  let pattern := detect_folder_pattern root
  if pattern = .Flat then .ok (root, 0)
  else
    match moveLoop pattern root (collectL [] root) 0 with
    | .ok (r2, moved) => .ok (cleanupEmptySubdirs r2, moved)
    | .error e => .error e

instance {ε α : Type} [DecidableEq ε] [DecidableEq α] : DecidableEq (Except ε α)
  | .error a, .error b =>
    if h : a = b then .isTrue (by rw [h])
    else .isFalse (by intro hh; injection hh; exact h (by assumption))
  | .error _, .ok _ => .isFalse (by intro h; cases h)
  | .ok _, .error _ => .isFalse (by intro h; cases h)
  | .ok a, .ok b =>
    if h : a = b then .isTrue (by rw [h])
    else .isFalse (by intro hh; injection hh; exact h (by assumption))

/-- Well-formedness of a directory tree: sibling names are distinct at every
level, as on a real filesystem. -/
def wfFs : Fs → Bool
  | .nil => true
  | .file m t => !hasName m t && wfFs t
  | .dir m cs t => !hasName m t && (wfFs cs && wfFs t)

example :
    detect_folder_pattern (.dir "mp3" (.file "01.mp3" .nil) .nil) = .Mp3Subfolder := by
  decide

example :
    normalize_folder_structure (.dir "mp3" (.file "01.mp3" .nil) .nil) =
      .ok (.file "01.mp3" .nil, 1) := by
  decide

example :
    detect_folder_pattern
      (.dir "disc1" (.file "01.mp3" .nil) (.dir "disc2" (.file "01.mp3" .nil) .nil)) =
      .DiscSubfolders := by
  decide

example :
    normalize_folder_structure
      (.dir "disc1" (.file "01.mp3" .nil) (.dir "disc2" (.file "01.mp3" .nil) .nil)) =
      .ok (.file "disc1_01.mp3" (.file "disc2_01.mp3" .nil), 2) := by
  decide

example :
    detect_folder_pattern (.dir "music" (.file "01.mp3" .nil) .nil) = .Flat := by
  decide

/-! ### Lemmas about the parsing cascade -/

theorem orBounded_eq_some {raw next : Option Nat} {n : Nat}
    (h : orBounded raw next = some n) : (0 < n ∧ n < 1000) ∨ next = some n := by
  cases raw with
  | none => exact Or.inr h
  | some m =>
    simp only [orBounded] at h
    by_cases hb : 0 < m ∧ m < 1000
    · rw [if_pos hb] at h
      injection h with h
      exact Or.inl (h ▸ hb)
    · rw [if_neg hb] at h
      exact Or.inr h

/-- Any result of the automatic cascade satisfies the 1..999 sanity bound. -/
theorem parse_track_number_bound {f : String} {n : Nat}
    (h : parse_track_number f = some n) : 0 < n ∧ n < 1000 := by
  unfold parse_track_number at h
  rcases orBounded_eq_some h with hb | h
  · exact hb
  rcases orBounded_eq_some h with hb | h
  · exact hb
  rcases orBounded_eq_some h with hb | h
  · exact hb
  rcases orBounded_eq_some h with hb | h
  · exact hb
  rcases orBounded_eq_some h with hb | h
  · exact hb
  rcases orBounded_eq_some h with hb | h
  · exact hb
  exact absurd h (by simp)

/-- Any result of parse_asian_brackets satisfies the 1..999 sanity bound. -/
theorem parse_asian_brackets_bound {f : String} {n : Nat}
    (h : parse_asian_brackets f = some n) : 0 < n ∧ n < 1000 := by
  unfold parse_asian_brackets at h
  rcases orBounded_eq_some h with hb | h
  · exact hb
  rcases orBounded_eq_some h with hb | h
  · exact hb
  rcases orBounded_eq_some h with hb | h
  · exact hb
  rcases orBounded_eq_some h with hb | h
  · exact hb
  rcases orBounded_eq_some h with hb | h
  · exact hb
  rcases orBounded_eq_some h with hb | h
  · exact hb
  exact absurd h (by simp)

/-- Any result of parse_kanji_episode satisfies the 1..999 sanity bound. -/
theorem parse_kanji_episode_bound {f : String} {n : Nat}
    (h : parse_kanji_episode f = some n) : 0 < n ∧ n < 1000 := by
  unfold parse_kanji_episode at h
  rcases orBounded_eq_some h with hb | h
  · exact hb
  exact absurd h (by simp)

/-- Any result of try_strategy, under any preference, satisfies the 1..999
sanity bound. -/
theorem try_strategy_bound {f : String} {p : TrackParsingPreference} {n : Nat}
    (h : try_strategy f p = some n) : 0 < n ∧ n < 1000 := by
  unfold try_strategy at h
  split at h
  · exact parse_asian_brackets_bound h
  split at h
  · exact parse_kanji_episode_bound h
  split at h
  · exact parse_track_number_bound h
  split at h
  · rcases orBounded_eq_some h with hb | h
    · exact hb
    exact absurd h (by simp)
  split at h
  · split at h
    · rcases orBounded_eq_some h with hb | h
      · exact hb
      exact absurd h (by simp)
    · exact absurd h (by simp)
  · exact parse_track_number_bound h

theorem optNoneOrElse {α : Type} (x : Option α) : (none <|> x) = x := rfl

theorem optSomeOrElse {α : Type} (a : α) (x : Option α) : (some a <|> x) = some a := rfl

theorem isSep_not_digit {c : Char} (h : isSep c = true) : isDigitA c = false := by
  simp only [isSep, Bool.or_eq_true, decide_eq_true_eq] at h
  rcases h with ((((((((h | h) | h) | h) | h) | h) | h) | h) | h) <;> subst h <;> decide

theorem digitsVal_aux : ∀ (ds : List Char) (acc : Nat), (∀ d ∈ ds, isDigitA d = true) →
    ds.foldl (fun a c => a * 10 + (c.toNat - 48)) acc < (acc + 1) * 10 ^ ds.length := by
  intro ds
  induction ds with
  | nil => intro acc _; simp
  | cons d ds ih =>
    intro acc h
    have hd : d.toNat - 48 < 10 := by
      have hh := h d (by simp)
      simp only [isDigitA, Bool.and_eq_true, decide_eq_true_eq] at hh
      omega
    have step := ih (acc * 10 + (d.toNat - 48)) fun x hx => h x (by simp [hx])
    simp only [List.foldl_cons, List.length_cons]
    calc List.foldl (fun a c => a * 10 + (c.toNat - 48)) (acc * 10 + (d.toNat - 48)) ds
        < (acc * 10 + (d.toNat - 48) + 1) * 10 ^ ds.length := step
      _ ≤ ((acc + 1) * 10) * 10 ^ ds.length := by
          apply Nat.mul_le_mul_right
          omega
      _ = (acc + 1) * 10 ^ (ds.length + 1) := by ring

theorem digitsVal_lt_1000 {ds : List Char} (h : ∀ d ∈ ds, isDigitA d = true)
    (hlen : ds.length ≤ 3) : digitsVal ds < 1000 := by
  have := digitsVal_aux ds 0 h
  have hle : (10 : Nat) ^ ds.length ≤ 10 ^ 3 :=
    Nat.pow_le_pow_right (by omega) hlen
  simp only [digitsVal]
  omega

theorem matchBeginningRaw_leading {ds : List Char} {c : Char} {rest : List Char}
    (hdig : ∀ d ∈ ds, isDigitA d = true) (h1 : 1 ≤ ds.length) (h3 : ds.length ≤ 3)
    (hsep : isSep c = true) :
    matchBeginningRaw (ds ++ c :: rest) = some (digitsVal ds) := by
  have hc : isDigitA c = false := isSep_not_digit hsep
  match ds, h1, h3 with
  | [a], _, _ =>
    have ha : isDigitA a = true := hdig a (by simp)
    have t3 : takeDigits 3 (a :: c :: rest) = none := by
      simp [takeDigits, ha, hc]
    have t2 : takeDigits 2 (a :: c :: rest) = none := by
      simp [takeDigits, ha, hc]
    have t1 : takeDigits 1 (a :: c :: rest) = some ([a], c :: rest) := by
      simp [takeDigits, ha]
    simp [matchBeginningRaw, tryDigits13, t3, t2, t1, hsep, optNoneOrElse]
  | [a, b], _, _ =>
    have ha : isDigitA a = true := hdig a (by simp)
    have hb : isDigitA b = true := hdig b (by simp)
    have t3 : takeDigits 3 (a :: b :: c :: rest) = none := by
      simp [takeDigits, ha, hb, hc]
    have t2 : takeDigits 2 (a :: b :: c :: rest) = some ([a, b], c :: rest) := by
      simp [takeDigits, ha, hb]
    simp [matchBeginningRaw, tryDigits13, t3, t2, hsep, optNoneOrElse]
  | [a, b, d], _, _ =>
    have ha : isDigitA a = true := hdig a (by simp)
    have hb : isDigitA b = true := hdig b (by simp)
    have hd : isDigitA d = true := hdig d (by simp)
    have t3 : takeDigits 3 (a :: b :: d :: c :: rest) = some ([a, b, d], c :: rest) := by
      simp [takeDigits, ha, hb, hd]
    simp [matchBeginningRaw, tryDigits13, t3, hsep, optSomeOrElse]

/-- Leading-number priority: when the extension-stripped name starts with one
to three digits followed by a separator and the digits are a valid track
number, the automatic cascade returns exactly that leading number, whatever
the rest of the name contains. -/
theorem parse_track_number_leading {f : String} {ds : List Char} {c : Char}
    {rest : List Char} (hsplit : stripExt f.data = ds ++ c :: rest)
    (hdig : ∀ d ∈ ds, isDigitA d = true) (h1 : 1 ≤ ds.length) (h3 : ds.length ≤ 3)
    (hsep : isSep c = true) (hlo : 1 ≤ digitsVal ds) :
    parse_track_number f = some (digitsVal ds) := by
  have hm := @matchBeginningRaw_leading ds c rest hdig h1 h3 hsep
  have hhi : digitsVal ds < 1000 := digitsVal_lt_1000 hdig h3
  simp only [parse_track_number, hsplit, hm, orBounded]
  rw [if_pos ⟨by omega, hhi⟩]

/-! ### Lemmas about the tag_all_files trace -/

theorem trace_split_lt {es ts : List TagEvent}
    (h1 : ∀ x ∈ es, ∀ f t, x ≠ TagEvent.fileTagged f t)
    (h2 : ∀ x ∈ ts, ∀ p, x ≠ TagEvent.prefSaved p)
    {i j : Nat} {p : TrackParsingPreference} {f : String} {t : Option Nat}
    (hi : (es ++ ts)[i]? = some (TagEvent.prefSaved p))
    (hj : (es ++ ts)[j]? = some (TagEvent.fileTagged f t)) : i < j := by
  have hilen : i < es.length := by
    by_contra hc
    push_neg at hc
    rw [List.getElem?_append_right hc] at hi
    exact h2 _ (List.getElem?_mem hi) p rfl
  have hjlen : es.length ≤ j := by
    by_contra hc
    push_neg at hc
    rw [List.getElem?_append_left hc] at hj
    exact h1 _ (List.getElem?_mem hj) f t rfl
  omega

theorem notTagged_nil : ∀ x ∈ ([] : List TagEvent), ∀ f t, x ≠ TagEvent.fileTagged f t := by
  simp

theorem notTagged_selector :
    ∀ x ∈ [TagEvent.selectorRun], ∀ f t, x ≠ TagEvent.fileTagged f t := by
  simp

theorem notTagged_saved (p : TrackParsingPreference) :
    ∀ x ∈ [TagEvent.selectorRun, TagEvent.prefSaved p], ∀ f t,
      x ≠ TagEvent.fileTagged f t := by
  intro x hx f t
  simp only [List.mem_cons, List.not_mem_nil, or_false] at hx
  rcases hx with rfl | rfl <;> simp

theorem notSaved_nil : ∀ x ∈ ([] : List TagEvent), ∀ p, x ≠ TagEvent.prefSaved p := by
  simp

theorem notSaved_map (fs : List String) (g : String → Option Nat) :
    ∀ x ∈ fs.map fun f => TagEvent.fileTagged f (g f), ∀ p,
      x ≠ TagEvent.prefSaved p := by
  intro x hx p
  rcases List.mem_map.1 hx with ⟨f, _, rfl⟩
  simp

/-- The shape of a tag_all_files trace: a selector part with no tagging
events, followed by a tagging part with no save events. -/
theorem tagAllFiles_shape (w : WorkInput) :
    ∃ es ts, (tagAllFiles w).1 = es ++ ts ∧
      (∀ x ∈ es, ∀ f t, x ≠ TagEvent.fileTagged f t) ∧
      (∀ x ∈ ts, ∀ p, x ≠ TagEvent.prefSaved p) := by
  by_cases he : w.filenames.isEmpty
  · exact ⟨[], [], by simp [tagAllFiles, he], notTagged_nil, notSaved_nil⟩
  rcases hsv : w.savedPref with _ | p0
  · by_cases hdc : 3 * w.filenames.length < 10 * cascade_failure_count w.filenames
    · rcases hpr : promptForParsingStrategy w.userSelection w.delimiterInput with _ | pref
      · exact ⟨[TagEvent.selectorRun], w.filenames.map fun f =>
            TagEvent.fileTagged f (parse_track_number_with_preference f none),
          by simp [tagAllFiles, he, hsv, hdc, hpr], notTagged_selector, notSaved_map _ _⟩
      by_cases hca : w.confirmAnswer
      · by_cases hso : w.saveOk
        · exact ⟨[TagEvent.selectorRun, TagEvent.prefSaved pref], w.filenames.map fun f =>
              TagEvent.fileTagged f (parse_track_number_with_preference f (some pref)),
            by simp [tagAllFiles, he, hsv, hdc, hpr, hca, hso], notTagged_saved pref,
            notSaved_map _ _⟩
        · exact ⟨[TagEvent.selectorRun], [],
            by simp [tagAllFiles, he, hsv, hdc, hpr, hca, hso], notTagged_selector,
            notSaved_nil⟩
      · exact ⟨[TagEvent.selectorRun], w.filenames.map fun f =>
            TagEvent.fileTagged f (parse_track_number_with_preference f none),
          by simp [tagAllFiles, he, hsv, hdc, hpr, hca], notTagged_selector,
          notSaved_map _ _⟩
    · exact ⟨[], w.filenames.map fun f =>
          TagEvent.fileTagged f (parse_track_number_with_preference f none),
        by simp [tagAllFiles, he, hsv, hdc], notTagged_nil, notSaved_map _ _⟩
  · exact ⟨[], w.filenames.map fun f =>
        TagEvent.fileTagged f (parse_track_number_with_preference f (some p0)),
      by simp [tagAllFiles, he, hsv], notTagged_nil, notSaved_map _ _⟩

/-- The trigger of the interactive selector: with no stored preference, a
nonempty file set, and a cascade failure fraction strictly above 3/10, the
selector runs. -/
theorem selector_runs {w : WorkInput} (hsv : w.savedPref = none)
    (hne : ¬w.filenames.isEmpty = true)
    (hdc : 3 * w.filenames.length < 10 * cascade_failure_count w.filenames) :
    TagEvent.selectorRun ∈ (tagAllFiles w).1 := by
  rcases hpr : promptForParsingStrategy w.userSelection w.delimiterInput with _ | pref
  · simp [tagAllFiles, hne, hsv, hdc, hpr]
  by_cases hca : w.confirmAnswer
  · by_cases hso : w.saveOk
    · simp [tagAllFiles, hne, hsv, hdc, hpr, hca, hso]
    · simp [tagAllFiles, hne, hsv, hdc, hpr, hca, hso]
  · simp [tagAllFiles, hne, hsv, hdc, hpr, hca]

/-! ### Lemmas about the folder normalizer -/

/-- The entries of the recursive collection that are not already at the root
(the relocation work list after the skip of root-level files). -/
def filterNE (l : List (List String × String)) : List (List String × String) :=
  l.filter fun pn => !pn.1.isEmpty

/-- The audio files strictly below the root, as the recursive collection
reports them. -/
def filteredCollect (fs : Fs) : List (List String × String) :=
  filterNE (collectL [] fs)

theorem collectL_path : ∀ (fs : Fs) (pre q : List String) (n : String),
    (q, n) ∈ collectL pre fs → ∃ s, q = pre ++ s := by
  intro fs
  induction fs with
  | nil => intro pre q n h; simp [collectL] at h
  | file m t ih =>
    intro pre q n h
    simp only [collectL] at h
    rcases List.mem_append.1 h with h | h
    · by_cases ha : isAudioName m
      · rw [if_pos ha] at h
        simp only [List.mem_singleton, Prod.mk.injEq] at h
        exact ⟨[], by simp [h.1]⟩
      · rw [if_neg ha] at h
        simp at h
    · exact ih pre q n h
  | dir m cs t ihcs iht =>
    intro pre q n h
    simp only [collectL] at h
    rcases List.mem_append.1 h with h | h
    · rcases ihcs (pre ++ [m]) q n h with ⟨s, hs⟩
      exact ⟨m :: s, by simp [hs]⟩
    · exact iht pre q n h

theorem collectL_audio : ∀ (fs : Fs) (pre q : List String) (n : String),
    (q, n) ∈ collectL pre fs → isAudioName n = true := by
  intro fs
  induction fs with
  | nil => intro pre q n h; simp [collectL] at h
  | file m t ih =>
    intro pre q n h
    simp only [collectL] at h
    rcases List.mem_append.1 h with h | h
    · by_cases ha : isAudioName m
      · rw [if_pos ha] at h
        simp only [List.mem_singleton, Prod.mk.injEq] at h
        exact h.2 ▸ ha
      · rw [if_neg ha] at h
        simp at h
    · exact ih pre q n h
  | dir m cs t ihcs iht =>
    intro pre q n h
    simp only [collectL] at h
    rcases List.mem_append.1 h with h | h
    · exact ihcs (pre ++ [m]) q n h
    · exact iht pre q n h

theorem collectL_dirname : ∀ (fs : Fs) (pre : List String) (d : String)
    (q : List String) (n : String),
    (pre ++ d :: q, n) ∈ collectL pre fs → hasName d fs = true := by
  intro fs
  induction fs with
  | nil => intro pre d q n h; simp [collectL] at h
  | file m t ih =>
    intro pre d q n h
    simp only [collectL] at h
    rcases List.mem_append.1 h with h | h
    · by_cases ha : isAudioName m
      · rw [if_pos ha] at h
        simp only [List.mem_singleton, Prod.mk.injEq] at h
        have := congrArg List.length h.1
        simp at this
      · rw [if_neg ha] at h
        simp at h
    · simp [hasName, ih pre d q n h]
  | dir m cs t ihcs iht =>
    intro pre d q n h
    simp only [collectL] at h
    rcases List.mem_append.1 h with h | h
    · rcases collectL_path cs (pre ++ [m]) _ n h with ⟨s, hs⟩
      rw [List.append_assoc] at hs
      have := (List.append_right_inj pre).1 hs
      simp only [List.singleton_append, List.cons.injEq] at this
      simp [hasName, this.1]
    · simp [hasName, iht pre d q n h]

theorem hasName_updateDir (k d : String) (f : Fs → Fs) :
    ∀ fs : Fs, hasName k (updateDir d f fs) = hasName k fs := by
  intro fs
  induction fs with
  | nil => rfl
  | file m t ih => simp [updateDir, hasName, ih]
  | dir m cs t ihcs iht =>
    by_cases hmd : m = d
    · simp [updateDir, hmd, hasName]
    · simp [updateDir, hmd, hasName, iht]

theorem hasName_removeFileRoot {k n : String} :
    ∀ fs : Fs, hasName k (removeFileRoot n fs) = true → hasName k fs = true := by
  intro fs
  induction fs with
  | nil => intro h; exact h
  | file m t ih =>
    intro h
    by_cases hmn : m = n
    · simp only [removeFileRoot, if_pos hmn] at h
      simp [hasName, h]
    · simp only [removeFileRoot, if_neg hmn, hasName, Bool.or_eq_true] at h ⊢
      rcases h with h | h
      · exact Or.inl h
      · exact Or.inr (ih h)
  | dir m cs t ihcs iht =>
    intro h
    simp only [removeFileRoot, hasName, Bool.or_eq_true] at h ⊢
    rcases h with h | h
    · exact Or.inl h
    · exact Or.inr (iht h)

theorem hasName_removeAtPath {k : String} :
    ∀ (p : List String) (n : String) (fs : Fs),
      hasName k (removeAtPath p n fs) = true → hasName k fs = true := by
  intro p
  cases p with
  | nil => intro n fs h; exact hasName_removeFileRoot fs h
  | cons d rest =>
    intro n fs h
    rw [removeAtPath, hasName_updateDir] at h
    exact h

theorem hasName_appendFile (k n : String) :
    ∀ fs : Fs, hasName k (appendFile n fs) = (hasName k fs || decide (n = k)) := by
  intro fs
  induction fs with
  | nil => simp [appendFile, hasName]
  | file m t ih => simp [appendFile, hasName, ih, Bool.or_assoc]
  | dir m cs t ihcs iht => simp [appendFile, hasName, iht, Bool.or_assoc]

theorem wf_removeFileRoot (n : String) :
    ∀ fs : Fs, wfFs fs = true → wfFs (removeFileRoot n fs) = true := by
  intro fs
  induction fs with
  | nil => intro h; exact h
  | file m t ih =>
    intro h
    simp only [wfFs, Bool.and_eq_true, Bool.not_eq_true'] at h
    by_cases hmn : m = n
    · simp only [removeFileRoot, if_pos hmn]
      exact h.2
    · simp only [removeFileRoot, if_neg hmn, wfFs, Bool.and_eq_true, Bool.not_eq_true']
      refine ⟨?_, ih h.2⟩
      by_cases hm : hasName m (removeFileRoot n t) = true
      · rw [hasName_removeFileRoot t hm] at h
        exact absurd h.1 (by simp)
      · simpa using hm
  | dir m cs t ihcs iht =>
    intro h
    simp only [wfFs, Bool.and_eq_true, Bool.not_eq_true'] at h
    simp only [removeFileRoot, wfFs, Bool.and_eq_true, Bool.not_eq_true']
    refine ⟨?_, h.2.1, iht h.2.2⟩
    by_cases hm : hasName m (removeFileRoot n t) = true
    · rw [hasName_removeFileRoot t hm] at h
      exact absurd h.1 (by simp)
    · simpa using hm

theorem wf_updateDir (d : String) (f : Fs → Fs)
    (hf : ∀ cs, wfFs cs = true → wfFs (f cs) = true) :
    ∀ fs : Fs, wfFs fs = true → wfFs (updateDir d f fs) = true := by
  intro fs
  induction fs with
  | nil => intro h; exact h
  | file m t ih =>
    intro h
    simp only [wfFs, Bool.and_eq_true, Bool.not_eq_true'] at h
    simp only [updateDir, wfFs, Bool.and_eq_true, Bool.not_eq_true',
      hasName_updateDir]
    exact ⟨h.1, ih h.2⟩
  | dir m cs t ihcs iht =>
    intro h
    simp only [wfFs, Bool.and_eq_true, Bool.not_eq_true'] at h
    by_cases hmd : m = d
    · simp only [updateDir, if_pos hmd, wfFs, Bool.and_eq_true, Bool.not_eq_true']
      exact ⟨h.1, hf cs h.2.1, h.2.2⟩
    · simp only [updateDir, if_neg hmd, wfFs, Bool.and_eq_true, Bool.not_eq_true',
        hasName_updateDir]
      exact ⟨h.1, h.2.1, iht h.2.2⟩

theorem wf_removeAtPath : ∀ (p : List String) (n : String) (fs : Fs),
    wfFs fs = true → wfFs (removeAtPath p n fs) = true := by
  intro p
  induction p with
  | nil => intro n fs h; exact wf_removeFileRoot n fs h
  | cons d rest ih =>
    intro n fs h
    exact wf_updateDir d (removeAtPath rest n) (fun cs => ih n cs) fs h

theorem wf_appendFile (n : String) :
    ∀ fs : Fs, wfFs fs = true → hasName n fs = false →
      wfFs (appendFile n fs) = true := by
  intro fs
  induction fs with
  | nil => intro _ _; simp [appendFile, wfFs, hasName]
  | file m t ih =>
    intro h hn
    simp only [wfFs, Bool.and_eq_true, Bool.not_eq_true'] at h
    simp only [hasName, Bool.or_eq_false_iff, decide_eq_false_iff_not] at hn
    simp only [appendFile, wfFs, Bool.and_eq_true, Bool.not_eq_true',
      hasName_appendFile]
    refine ⟨?_, ih h.2 hn.2⟩
    simp only [h.1, Bool.false_or, decide_eq_false_iff_not]
    exact fun hc => hn.1 hc.symm
  | dir m cs t ihcs iht =>
    intro h hn
    simp only [wfFs, Bool.and_eq_true, Bool.not_eq_true'] at h
    simp only [hasName, Bool.or_eq_false_iff, decide_eq_false_iff_not] at hn
    simp only [appendFile, wfFs, Bool.and_eq_true, Bool.not_eq_true',
      hasName_appendFile]
    refine ⟨?_, h.2.1, iht h.2.2 hn.2⟩
    simp only [h.1, Bool.false_or, decide_eq_false_iff_not]
    exact fun hc => hn.1 hc.symm

theorem collectL_appendFile (n : String) : ∀ (fs : Fs) (pre : List String),
    collectL pre (appendFile n fs) =
      collectL pre fs ++ (if isAudioName n then [(pre, n)] else []) := by
  intro fs
  induction fs with
  | nil => intro pre; simp [appendFile, collectL]
  | file m t ih => intro pre; simp [appendFile, collectL, ih]
  | dir m cs t ihcs iht => intro pre; simp [appendFile, collectL, iht]

theorem filteredCollect_appendFile (n : String) (fs : Fs) :
    filteredCollect (appendFile n fs) = filteredCollect fs := by
  simp only [filteredCollect, filterNE, collectL_appendFile n fs [],
    List.filter_append]
  by_cases ha : isAudioName n
  · simp [ha]
  · simp [ha]

theorem collectL_cleanup : ∀ (fs : Fs) (pre : List String),
    collectL pre (cleanupEmptySubdirs fs) = collectL pre fs := by
  intro fs
  induction fs with
  | nil => intro pre; rfl
  | file m t ih => intro pre; simp [cleanupEmptySubdirs, collectL, ih]
  | dir m cs t ihcs iht =>
    intro pre
    cases cs with
    | nil => simp [cleanupEmptySubdirs, collectL, iht]
    | file a b => simp [cleanupEmptySubdirs, collectL, iht]
    | dir a b c => simp [cleanupEmptySubdirs, collectL, iht]

theorem filteredCollect_cleanup (fs : Fs) :
    filteredCollect (cleanupEmptySubdirs fs) = filteredCollect fs := by
  simp [filteredCollect, collectL_cleanup]

theorem filteredCollect_file (m : String) (t : Fs) :
    filteredCollect (.file m t) = filteredCollect t := by
  simp only [filteredCollect, filterNE, collectL, List.filter_append]
  by_cases ha : isAudioName m
  · simp [ha]
  · simp [ha]

theorem collectL_sub_filter (m : String) (cs : Fs) :
    List.filter (fun pn => !pn.1.isEmpty) (collectL [m] cs) = collectL [m] cs := by
  rw [List.filter_eq_self]
  intro a ha
  rcases collectL_path cs [m] a.1 a.2 (by simpa using ha) with ⟨s, hs⟩
  simp [hs]

theorem filteredCollect_dir (m : String) (cs t : Fs) :
    filteredCollect (.dir m cs t) = collectL [m] cs ++ filteredCollect t := by
  simp only [filteredCollect, filterNE, collectL, List.filter_append,
    List.nil_append, collectL_sub_filter]

/-- Removing the first collected below-root audio file from the tree removes
exactly the head of the collection list. -/
theorem collectL_removeAtPath : ∀ (fs : Fs) (pre p : List String) (n : String)
    (tail : List (List String × String)), wfFs fs = true →
    collectL pre fs = (pre ++ p, n) :: tail →
    collectL pre (removeAtPath p n fs) = tail := by
  intro fs
  induction fs with
  | nil => intro pre p n tail hwf h; simp [collectL] at h
  | file m t ih =>
    intro pre p n tail hwf h
    simp only [wfFs, Bool.and_eq_true, Bool.not_eq_true'] at hwf
    by_cases ha : isAudioName m
    · rw [collectL, if_pos ha, List.singleton_append, List.cons.injEq,
        Prod.mk.injEq] at h
      obtain ⟨⟨hp, hm⟩, ht⟩ := h
      have hp0 : p = [] := by
        have := congrArg List.length hp
        simp at this
        exact this
      subst hp0
      subst hm
      simp only [removeAtPath, removeFileRoot, if_pos rfl]
      exact ht
    · rw [collectL, if_neg ha, List.nil_append] at h
      cases p with
      | nil =>
        have hmem : (pre ++ [], n) ∈ collectL pre t := by
          rw [h]; exact List.mem_cons_self _ _
        have hna : isAudioName n = true := collectL_audio t pre (pre ++ []) n hmem
        have hmn : ¬(m = n) := fun hc => ha (by rw [hc]; exact hna)
        have hrec := ih pre [] n tail hwf.2 h
        simp only [removeAtPath] at hrec ⊢
        simp only [removeFileRoot, if_neg hmn, collectL, if_neg ha, List.nil_append]
        exact hrec
      | cons d rest =>
        have hrec := ih pre (d :: rest) n tail hwf.2 h
        simp only [removeAtPath] at hrec ⊢
        simp only [updateDir, collectL, if_neg ha, List.nil_append]
        exact hrec
  | dir m cs t ihcs iht =>
    intro pre p n tail hwf h
    simp only [wfFs, Bool.and_eq_true, Bool.not_eq_true'] at hwf
    obtain ⟨hm, hwcs, hwt⟩ := hwf
    simp only [collectL] at h
    rcases hcs : collectL (pre ++ [m]) cs with _ | ⟨q0, qs⟩
    · rw [hcs, List.nil_append] at h
      cases p with
      | nil =>
        have hrec := iht pre [] n tail hwt h
        simp only [removeAtPath] at hrec ⊢
        simp only [removeFileRoot, collectL, hcs, List.nil_append]
        exact hrec
      | cons d rest =>
        have hmd : ¬(m = d) := by
          intro hc
          subst hc
          have hmem : (pre ++ m :: rest, n) ∈ collectL pre t := by
            rw [h]; exact List.mem_cons_self _ _
          have := collectL_dirname t pre m rest n hmem
          rw [this] at hm
          simp at hm
        have hrec := iht pre (d :: rest) n tail hwt h
        simp only [removeAtPath] at hrec ⊢
        simp only [updateDir, if_neg hmd, collectL, hcs, List.nil_append]
        exact hrec
    · rw [hcs, List.cons_append, List.cons.injEq] at h
      obtain ⟨hq0, htl⟩ := h
      have hq0mem : q0 ∈ collectL (pre ++ [m]) cs := by
        rw [hcs]; exact List.mem_cons_self _ _
      rcases collectL_path cs (pre ++ [m]) q0.1 q0.2 hq0mem with ⟨s, hs⟩
      have hp2 : p = m :: s := by
        have h1 : pre ++ p = (pre ++ [m]) ++ s := by
          rw [← hs, hq0]
        rw [List.append_assoc] at h1
        have := (List.append_right_inj pre).1 h1
        simpa using this
      subst hp2
      simp only [removeAtPath, updateDir, eq_self_iff_true, if_true]
      simp only [collectL]
      have heads : collectL (pre ++ [m]) cs = ((pre ++ [m]) ++ s, n) :: qs := by
        rw [hcs]
        congr 1
        rw [hq0]
        simp
      have hkey := ihcs (pre ++ [m]) s n qs hwcs heads
      simp only [removeAtPath] at hkey
      rw [hkey]
      exact htl

/-- Root version of the previous lemma, on the worklist of files that are not
already at the root. -/
theorem filteredCollect_removeAtPath : ∀ (fs : Fs) (p : List String) (n : String)
    (tail : List (List String × String)), wfFs fs = true → p ≠ [] →
    filteredCollect fs = (p, n) :: tail →
    filteredCollect (removeAtPath p n fs) = tail := by
  intro fs
  induction fs with
  | nil => intro p n tail _ _ h; simp [filteredCollect, filterNE, collectL] at h
  | file m t ih =>
    intro p n tail hwf hp h
    rw [filteredCollect_file] at h
    simp only [wfFs, Bool.and_eq_true, Bool.not_eq_true'] at hwf
    cases p with
    | nil => exact absurd rfl hp
    | cons d rest =>
      have hrec := ih (d :: rest) n tail hwf.2 hp h
      simp only [removeAtPath] at hrec ⊢
      simp only [updateDir]
      rw [filteredCollect_file]
      exact hrec
  | dir m cs t ihcs iht =>
    intro p n tail hwf hp h
    simp only [wfFs, Bool.and_eq_true, Bool.not_eq_true'] at hwf
    obtain ⟨hm, hwcs, hwt⟩ := hwf
    rw [filteredCollect_dir] at h
    rcases hcs : collectL [m] cs with _ | ⟨q0, qs⟩
    · rw [hcs, List.nil_append] at h
      cases p with
      | nil => exact absurd rfl hp
      | cons d rest =>
        have hmd : ¬(m = d) := by
          intro hc
          subst hc
          have hmem : (m :: rest, n) ∈ filteredCollect t := by
            rw [h]; exact List.mem_cons_self _ _
          have hmem2 : (m :: rest, n) ∈ collectL [] t := by
            simp only [filteredCollect, filterNE] at hmem
            exact List.mem_of_mem_filter hmem
          have := collectL_dirname t [] m rest n hmem2
          rw [this] at hm
          simp at hm
        have hrec := iht (d :: rest) n tail hwt hp h
        simp only [removeAtPath] at hrec ⊢
        simp only [updateDir, if_neg hmd]
        rw [filteredCollect_dir, hcs, List.nil_append]
        exact hrec
    · rw [hcs, List.cons_append, List.cons.injEq] at h
      obtain ⟨hq0, htl⟩ := h
      have hq0mem : q0 ∈ collectL [m] cs := by
        rw [hcs]; exact List.mem_cons_self _ _
      rcases collectL_path cs [m] q0.1 q0.2 hq0mem with ⟨s, hs⟩
      have hp2 : p = m :: s := by
        have h1 : p = [m] ++ s := by rw [← hs, hq0]
        simpa using h1
      subst hp2
      simp only [removeAtPath, updateDir, eq_self_iff_true, if_true]
      rw [filteredCollect_dir]
      have heads : collectL [m] cs = ([m] ++ s, n) :: qs := by
        rw [hcs, hq0]
        simp
      have hkey := collectL_removeAtPath cs [m] s n qs hwcs heads
      rw [hkey]
      exact htl

theorem conflictLoop_fresh {cur : Fs} {stem ext : String} :
    ∀ (fuel i : Nat) {fn : String}, conflictLoop cur stem ext i fuel = .ok fn →
      hasName fn cur = false := by
  intro fuel
  induction fuel with
  | zero => intro i fn h; simp [conflictLoop] at h
  | succ fuel ih =>
    intro i fn h
    simp only [conflictLoop] at h
    split at h
    · split at h
      · exact ih (i + 1) h
      · injection h with h
        subst h
        simp_all
    · split at h
      · exact ih (i + 1) h
      · injection h with h
        subst h
        simp_all

theorem resolve_fresh {cur : Fs} {name fn : String}
    (h : resolveFilenameConflict cur name = .ok fn) : hasName fn cur = false := by
  unfold resolveFilenameConflict at h
  split at h
  · exact conflictLoop_fresh 999 1 h
  · injection h with h
    subst h
    simp_all

/-- The relocation loop empties the below-root worklist: if the invariant
holds on entry and the loop succeeds, no audio file remains below the root. -/
theorem moveLoop_spec : ∀ (L : List (List String × String)) (pat : FolderPattern)
    (cur : Fs) (acc : Nat) (r2 : Fs) (mv : Nat), wfFs cur = true →
    filteredCollect cur = filterNE L →
    moveLoop pat cur L acc = .ok (r2, mv) → filteredCollect r2 = [] := by
  intro L
  induction L with
  | nil =>
    intro pat cur acc r2 mv hwf hinv h
    simp only [moveLoop] at h
    injection h with h
    injection h with h1 h2
    rw [← h1, hinv]
    rfl
  | cons hd rest ih =>
    intro pat cur acc r2 mv hwf hinv h
    rcases hd with ⟨rel, name⟩
    by_cases hre : rel.isEmpty
    · simp only [moveLoop, if_pos hre] at h
      refine ih pat cur acc r2 mv hwf ?_ h
      rw [hinv]
      simp [filterNE, hre]
    · simp only [moveLoop, if_neg hre] at h
      split at h
      · rename_i fn hres
        have hrel : rel ≠ [] := by
          intro hc
          rw [hc] at hre
          exact hre rfl
        have hinv2 : filteredCollect cur = (rel, name) :: filterNE rest := by
          rw [hinv]
          simp [filterNE, hre]
        have hrm : filteredCollect (removeAtPath rel name cur) = filterNE rest :=
          filteredCollect_removeAtPath cur rel name (filterNE rest) hwf hrel hinv2
        have hfresh : hasName fn (removeAtPath rel name cur) = false := by
          by_cases hx : hasName fn (removeAtPath rel name cur) = true
          · have hup := hasName_removeAtPath rel name cur hx
            have hdown := resolve_fresh hres
            rw [hup] at hdown
            simp at hdown
          · simpa using hx
        have hwf2 : wfFs (appendFile fn (removeAtPath rel name cur)) = true :=
          wf_appendFile fn _ (wf_removeAtPath rel name cur hwf) hfresh
        refine ih pat _ (acc + 1) r2 mv hwf2 ?_ h
        rw [filteredCollect_appendFile, hrm]
      · rename_i e hres
        simp at h

/-- The five subfolder flags, all false: no subfolder category is confirmed. -/
def fiveFalse (fl : DetectFlags) : Prop :=
  fl.hasMp3Subdir = false ∧ fl.hasAudioSubdir = false ∧ fl.hasFormatSubdir = false ∧
  fl.hasDiscSubdirs = false ∧ fl.hasLangSubdirs = false

instance (fl : DetectFlags) : Decidable (fiveFalse fl) := by
  unfold fiveFalse
  infer_instance

theorem hasAudioImmediate_collect : ∀ (cs : Fs) (pre : List String),
    hasAudioImmediate cs = true → collectL pre cs ≠ [] := by
  intro cs
  induction cs with
  | nil => intro pre h; simp [hasAudioImmediate] at h
  | file m t ih =>
    intro pre h
    simp only [hasAudioImmediate, Bool.or_eq_true] at h
    rcases h with h | h
    · simp [collectL, h]
    · have := ih pre h
      simp only [collectL, ne_eq, List.append_eq_nil]
      intro hc
      exact this hc.2
  | dir m cs2 t ihcs iht =>
    intro pre h
    simp only [hasAudioImmediate] at h
    have := iht pre h
    simp only [collectL, ne_eq, List.append_eq_nil]
    intro hc
    exact this hc.2

theorem scanFlags_fiveFalse : ∀ (fs : Fs) (fl : DetectFlags),
    filteredCollect fs = [] → fiveFalse fl → fiveFalse (scanFlags fl fs) := by
  intro fs
  induction fs with
  | nil => intro fl _ hf; exact hf
  | file m t ih =>
    intro fl hc hf
    rw [filteredCollect_file] at hc
    simp only [scanFlags]
    refine ih _ hc ?_
    by_cases ha : isAudioName m
    · rw [if_pos ha]
      exact hf
    · rw [if_neg ha]
      exact hf
  | dir m cs t ihcs iht =>
    intro fl hc hf
    rw [filteredCollect_dir, List.append_eq_nil] at hc
    have hai : hasAudioImmediate cs = false := by
      by_cases hx : hasAudioImmediate cs = true
      · exact absurd hc.1 (hasAudioImmediate_collect cs [m] hx)
      · simpa using hx
    simp only [scanFlags]
    refine iht _ hc.2 ?_
    obtain ⟨h1, h2, h3, h4, h5⟩ := hf
    split
    · exact ⟨hai, h2, h3, h4, h5⟩
    split
    · exact ⟨h1, hai, h3, h4, h5⟩
    split
    · exact ⟨h1, h2, hai, h4, h5⟩
    split
    · exact ⟨h1, h2, h3, hai, h5⟩
    split
    · exact ⟨h1, h2, h3, h4, hai⟩
    · exact ⟨h1, h2, h3, h4, h5⟩

theorem fiveFalse_decidePattern {fl : DetectFlags} (hf : fiveFalse fl) :
    decidePattern fl = .Flat := by
  obtain ⟨h1, h2, h3, h4, h5⟩ := hf
  simp only [decidePattern, h1, h2, h3, h4, h5]
  cases hr : fl.hasAudioInRoot <;> simp

/-- When no audio file sits below the root, the detector reports Flat. -/
theorem detect_flat_of_empty {fs : Fs} (h : filteredCollect fs = []) :
    detect_folder_pattern fs = .Flat :=
  fiveFalse_decidePattern
    (scanFlags_fiveFalse fs initFlags h ⟨rfl, rfl, rfl, rfl, rfl⟩)

/-- Idempotence of the folder normalizer: after one successful run, the
detector reports Flat and a second run moves nothing and changes nothing. -/
theorem normalize_idem_aux {root r2 : Fs} {moved : Nat} (hwf : wfFs root = true)
    (h : normalize_folder_structure root = .ok (r2, moved)) :
    detect_folder_pattern r2 = .Flat ∧ normalize_folder_structure r2 = .ok (r2, 0) := by
  simp only [normalize_folder_structure] at h
  by_cases hflat : detect_folder_pattern root = .Flat
  · rw [if_pos hflat] at h
    injection h with h
    injection h with h1 h2
    subst h1
    refine ⟨hflat, ?_⟩
    simp only [normalize_folder_structure]
    rw [if_pos hflat]
  · rw [if_neg hflat] at h
    split at h
    · rename_i x mv hml
      injection h with h
      injection h with h1 h2
      have hempty : filteredCollect x = [] :=
        moveLoop_spec (collectL [] root) _ root 0 x mv hwf rfl hml
      have h2e : filteredCollect r2 = [] := by
        rw [← h1, filteredCollect_cleanup]
        exact hempty
      have hdet := detect_flat_of_empty h2e
      refine ⟨hdet, ?_⟩
      simp only [normalize_folder_structure]
      rw [if_pos hdet]
    · rename_i e hml
      simp at h

/-! ### Claim theorems -/

/-- The first_number preference record, as the interactive selector builds it
for menu entry 4. -/
def prefFirstNumber : TrackParsingPreference := ⟨"first_number", none, false, none⟩

/-- C1: the claim says that when the operator chooses "skip this folder" the
processing of the work is aborted with a user-deferred signal and the tagging
loop is never entered.  The code does not do this: evaluated at the failing
input (two unparseable files, no stored preference, the operator selects the
skip entry of the menu), tag_all_files swallows the user-deferred error with
a warning and then tags every file of the work anyway, so the trace contains
a fileTagged event for each file after the selector ran. -/
theorem c1_skip_still_tags :
    tagAllFiles ⟨["foo.mp3", "bar.mp3"], none, 5, "", true, true⟩ =
      ([.selectorRun, .fileTagged "foo.mp3" none, .fileTagged "bar.mp3" none],
        true) := by
  decide

/-- C2: whenever the strategy named by a supplied preference yields none on a
filename, parse_track_number_with_preference returns exactly the result of
the plain standard cascade on that filename. -/
theorem c2_preference_fallback (f : String) (p : TrackParsingPreference)
    (h : try_strategy f p = none) :
    parse_track_number_with_preference f (some p) = parse_track_number f := by
  simp [parse_track_number_with_preference, h]

theorem c2_preference_fallback_witness :
    try_strategy "NoNumber.mp3" prefFirstNumber = none ∧
      parse_track_number_with_preference "NoNumber.mp3" (some prefFirstNumber) =
        parse_track_number "NoNumber.mp3" :=
  ⟨by decide, c2_preference_fallback "NoNumber.mp3" prefFirstNumber (by decide)⟩

/-- C3: for every filename, the standard cascade and every preference
strategy return either none or some n with 1 <= n <= 999; no strategy ever
returns some 0 or some n with n >= 1000. -/
theorem c3_universal_bound (f : String) (p : TrackParsingPreference) (n : Nat) :
    (parse_track_number f = some n → 1 ≤ n ∧ n ≤ 999) ∧
    (try_strategy f p = some n → 1 ≤ n ∧ n ≤ 999) := by
  constructor
  · intro h
    have := parse_track_number_bound h
    omega
  · intro h
    have := try_strategy_bound h
    omega

theorem c3_universal_bound_witness :
    (1 ≤ 1 ∧ 1 ≤ 999) ∧ parse_track_number "01 - Track.mp3" = some 1 :=
  ⟨(c3_universal_bound "01 - Track.mp3" prefFirstNumber 1).1 (by decide), by decide⟩

/-- C4: when the extension-stripped name begins with one to three digits
followed by a separator and that leading number lies in 1..999, the standard
cascade returns exactly the leading number, regardless of what the later
strategies of the cascade would match elsewhere in the string. -/
theorem c4_leading_number_priority (f : String) (ds : List Char) (c : Char)
    (rest : List Char) (hsplit : stripExt f.data = ds ++ c :: rest)
    (hdig : ∀ d ∈ ds, isDigitA d = true) (hlen1 : 1 ≤ ds.length)
    (hlen3 : ds.length ≤ 3) (hsep : isSep c = true)
    (hlo : 1 ≤ digitsVal ds) (hhi : digitsVal ds ≤ 999) :
    parse_track_number f = some (digitsVal ds) :=
  parse_track_number_leading hsplit hdig hlen1 hlen3 hsep hlo

theorem c4_leading_number_priority_witness :
    parse_track_number "01 - Track #9.mp3" = some (digitsVal ['0', '1']) :=
  c4_leading_number_priority "01 - Track #9.mp3" ['0', '1'] ' ' "- Track #9".data
    (by decide) (by decide) (by decide) (by decide) (by decide) (by decide)
    (by decide)

/-- C5, claim as stated is false: it asserts that for every file set the
cascade is computed and the selector runs whenever the none fraction exceeds
3/10.  At this concrete input the work has a stored preference, every
filename fails the cascade (fraction 1 > 3/10), and the selector does not
run, because tag_all_files only computes the cascade statistics and prompts
when no stored preference exists. -/
theorem c5_trigger_counterexample :
    3 * (["x.mp3"] : List String).length < 10 * cascade_failure_count ["x.mp3"] ∧
      TagEvent.selectorRun ∉
        (tagAllFiles ⟨["x.mp3"], some prefFirstNumber, 0, "", false, true⟩).1 := by
  decide

/-- C5 (amended): for a work with no stored preference and a nonempty file
set, the cascade is computed for every filename, and whenever the fraction of
filenames yielding none strictly exceeds 3/10 the interactive selector runs. -/
theorem c5_trigger_amended (w : WorkInput) (hsv : w.savedPref = none)
    (hne : w.filenames ≠ [])
    (hfrac : 3 * w.filenames.length < 10 * cascade_failure_count w.filenames) :
    TagEvent.selectorRun ∈ (tagAllFiles w).1 :=
  selector_runs hsv (fun hc => hne (by simpa using hc)) hfrac

theorem c5_trigger_amended_witness :
    TagEvent.selectorRun ∈ (tagAllFiles ⟨["x.mp3"], none, 0, "", false, true⟩).1 :=
  c5_trigger_amended ⟨["x.mp3"], none, 0, "", false, true⟩ rfl (by decide) (by decide)

/-- C6: the folder normalizer is idempotent.  For every well-formed work
directory, after one successful normalize_folder_structure run the detector
classifies the result as Flat and a second run returns ok with zero files
moved, leaving the directory unchanged. -/
theorem c6_normalizer_idempotent (root r2 : Fs) (moved : Nat)
    (hwf : wfFs root = true)
    (h : normalize_folder_structure root = .ok (r2, moved)) :
    detect_folder_pattern r2 = .Flat ∧
      normalize_folder_structure r2 = .ok (r2, 0) :=
  normalize_idem_aux hwf h

theorem c6_normalizer_idempotent_witness :
    detect_folder_pattern (.file "01.mp3" .nil) = .Flat ∧
      normalize_folder_structure (.file "01.mp3" .nil) =
        .ok (.file "01.mp3" .nil, 0) :=
  c6_normalizer_idempotent (.dir "mp3" (.file "01.mp3" .nil) .nil)
    (.file "01.mp3" .nil) 1 (by decide) (by decide)

/-- C7: a work directory with exactly disc1/01.mp3 and disc2/01.mp3 is
classified DiscSubfolders, and normalization moves both files to the root as
disc1_01.mp3 and disc2_01.mp3: the disc prefix is applied before the
collision check, so no numeric suffix is appended. -/
theorem c7_disc_prefix_collision :
    detect_folder_pattern
        (.dir "disc1" (.file "01.mp3" .nil)
          (.dir "disc2" (.file "01.mp3" .nil) .nil)) = .DiscSubfolders ∧
      normalize_folder_structure
          (.dir "disc1" (.file "01.mp3" .nil)
            (.dir "disc2" (.file "01.mp3" .nil) .nil)) =
        .ok (.file "disc1_01.mp3" (.file "disc2_01.mp3" .nil), 2) := by
  decide

/-- C8: in every tag_all_files run, a successful save of a confirmed
preference occurs strictly before every tag write of the work: any prefSaved
event in the trace has a strictly smaller index than any fileTagged event. -/
theorem c8_save_before_tagging (w : WorkInput) (i j : Nat)
    (p : TrackParsingPreference) (f : String) (t : Option Nat)
    (hi : (tagAllFiles w).1[i]? = some (TagEvent.prefSaved p))
    (hj : (tagAllFiles w).1[j]? = some (TagEvent.fileTagged f t)) : i < j := by
  obtain ⟨es, ts, heq, h1, h2⟩ := tagAllFiles_shape w
  rw [heq] at hi hj
  exact trace_split_lt h1 h2 hi hj

theorem c8_save_before_tagging_witness :
    (tagAllFiles ⟨["foo.mp3"], none, 4, "", true, true⟩).1[1]? =
        some (TagEvent.prefSaved prefFirstNumber) ∧ (1 : Nat) < 2 :=
  ⟨by decide, c8_save_before_tagging ⟨["foo.mp3"], none, 4, "", true, true⟩ 1 2
    prefFirstNumber "foo.mp3" none (by decide) (by decide)⟩

/-- C9: under the first_number preference strategy a digit run longer than
three digits is not rejected: the pattern captures the first three digits of
the run, so "1000.mp3" yields some 100 under first_number even though the
standard cascade returns none on the same filename. -/
theorem c9_first_number_long_run :
    try_strategy "1000.mp3" prefFirstNumber = some 100 ∧
      parse_track_number "1000.mp3" = none := by
  decide

/-- C10: whenever no subfolder category is confirmed by the scan (all five
subfolder flags false), detect_folder_pattern returns Flat, even with no
audio file at the root, and normalize_folder_structure then returns ok with
zero moves and leaves the tree unchanged, so audio in unrecognized
subdirectories is never flattened. -/
theorem c10_flat_when_unconfirmed (fs : Fs)
    (h : fiveFalse (scanFlags initFlags fs)) :
    detect_folder_pattern fs = .Flat ∧
      normalize_folder_structure fs = .ok (fs, 0) := by
  have hdet : detect_folder_pattern fs = .Flat := fiveFalse_decidePattern h
  refine ⟨hdet, ?_⟩
  simp only [normalize_folder_structure]
  rw [if_pos hdet]

theorem c10_flat_when_unconfirmed_witness :
    detect_folder_pattern (.dir "music" (.file "01.mp3" .nil) .nil) = .Flat ∧
      normalize_folder_structure (.dir "music" (.file "01.mp3" .nil) .nil) =
        .ok (.dir "music" (.file "01.mp3" .nil) .nil, 0) :=
  c10_flat_when_unconfirmed (.dir "music" (.file "01.mp3" .nil) .nil) (by decide)
